import Mathlib

/-!
# Verification of the DistroRun build pipeline

A shallow embedding, in Lean 4, of the parts of the DistroRun live-ISO
builder that carry its specified contracts:

* `internal/sbom/sbom.go` — the installed-package line parser
  (`parseApkPackage`);
* `internal/rootfs/cleanup.go` — the mount-lifecycle manager
  (`Unmount`, `CleanupRootfs`);
* the top-level build pipeline (`runBuild` in `main.go`) as an event trace,
  with a mount-table semantics, for the unmount-before-delete ordering
  invariant;
* the initramfs transcoder (`PatchInitramfs` in `internal/rootfs`) at the
  archive-entry level, including the `os.WriteFile` permission semantics;
* the artifact discovery/download logic (`downloadMinirootfs`);
* the generated live-boot init script (`customInit`) as a state machine.

Go strings are modelled as Lean `String`s; the byte-level operations the
code performs (`strings.HasPrefix`, byte-wise `<` used by
`sort.StringSlice`, indexing into ASCII package lines) are modelled on the
character list `String.data`, which agrees with the byte view on the ASCII
data these functions handle (and UTF-8 preserves lexicographic order).
-/

namespace Distrorun

/-! ## String helpers (Go `strings` / byte comparisons) -/

/-- Go `strings.HasPrefix s pre`, modelled on the character data. -/
def hasPrefix (s pre : String) : Bool :=
  pre.data.isPrefixOf s.data

/-- Extensionality for `String`: equal character data means equal strings. -/
theorem str_ext {a b : String} (h : a.data = b.data) : a = b := by
  cases a; cases b; cases h; rfl

theorem hasPrefix_append (a b : String) : hasPrefix (a ++ b) a = true := by
  have h : a.data <+: (a ++ b).data := by
    rw [String.data_append]; exact List.prefix_append _ _
  rw [hasPrefix, List.isPrefixOf_iff_prefix]
  exact h

theorem hasPrefix_append_both (w a b : String) :
    hasPrefix (w ++ a) (w ++ b) = b.data.isPrefixOf a.data := by
  simp only [hasPrefix, String.data_append]
  rcases h : b.data.isPrefixOf a.data with _ | _
  · apply Bool.eq_false_iff.mpr
    intro hcon
    rw [List.isPrefixOf_iff_prefix, List.prefix_append_right_inj] at hcon
    rw [← List.isPrefixOf_iff_prefix] at hcon
    rw [h] at hcon
    exact Bool.false_ne_true hcon
  · rw [List.isPrefixOf_iff_prefix, List.prefix_append_right_inj,
      ← List.isPrefixOf_iff_prefix, h]

/-! ## `parseApkPackage` (internal/sbom/sbom.go)

```go
func parseApkPackage(s string) (name, version string) {
    for i := len(s) - 1; i >= 0; i-- {
        if s[i] == '-' && i+1 < len(s) && s[i+1] >= '0' && s[i+1] <= '9' {
            return s[:i], s[i+1:]
        }
    }
    return s, "unknown"
}
```
-/

/-- The digit test `c >= '0' && c <= '9'` from the Go source. -/
def isApkDigit (c : Char) : Bool :=
  decide ('0'.toNat ≤ c.toNat) && decide (c.toNat ≤ '9'.toNat)

/-- The loop-body condition of `parseApkPackage` at index `i`:
`s[i] == '-' && i+1 < len(s) && s[i+1]` is a digit. -/
def apkSplitCond (cs : List Char) (i : Nat) : Bool :=
  match cs.get? i, cs.get? (i + 1) with
  | some c, some d => c == '-' && isApkDigit d
  | _, _ => false

/-- The index at which the Go loop returns: the loop counts `i` down from
`len(s)-1`, so the hit is the largest index satisfying `apkSplitCond`. -/
def apkSplitIndex (cs : List Char) : Option Nat :=
  (List.range cs.length).reverse.find? (apkSplitCond cs)

/-- `parseApkPackage` from `internal/sbom/sbom.go`: split an
`apk info -v` line at the last hyphen that immediately precedes a digit;
fall back to `(s, "unknown")` when no such hyphen exists. -/
def parseApkPackage (s : String) : String × String :=
  match apkSplitIndex s.data with
  | some i => (String.mk (s.data.take i), String.mk (s.data.drop (i + 1)))
  | none => (s, "unknown")

theorem apkSplitIndex_none_of_all_false {s : String}
    (h : ∀ i < s.data.length, apkSplitCond s.data i = false) :
    apkSplitIndex s.data = none := by
  apply List.find?_eq_none.mpr
  intro i hi
  rw [List.mem_reverse, List.mem_range] at hi
  simp [h i hi]

theorem apkSplitCond_of_index_eq {cs : List Char} {i : Nat}
    (h : apkSplitIndex cs = some i) : apkSplitCond cs i = true :=
  List.find?_some h

end Distrorun

namespace Distrorun

/-- **C5** — The package-line parser splits an installed-package line at the
last hyphen immediately preceding a digit: `"busybox-1.36.1-r1"` maps to
name `"busybox"` and version `"1.36.1-r1"`, and any input with no hyphen
immediately preceding a digit (such as `"no-version-here"`) maps to the
whole string as name with version `"unknown"`. -/
theorem parseApkPackage_spec :
    parseApkPackage "busybox-1.36.1-r1" = ("busybox", "1.36.1-r1") ∧
    parseApkPackage "no-version-here" = ("no-version-here", "unknown") ∧
    ∀ s : String, (∀ i < s.data.length, apkSplitCond s.data i = false) →
      parseApkPackage s = (s, "unknown") := by
  refine ⟨by decide, by decide, ?_⟩
  intro s h
  unfold parseApkPackage
  rw [apkSplitIndex_none_of_all_false h]

/-- Witness for `parseApkPackage_spec`: the no-digit-hyphen clause applied
at the concrete input `"no-version-here"`. -/
theorem parseApkPackage_spec_witness :
    parseApkPackage "no-version-here" = ("no-version-here", "unknown") :=
  parseApkPackage_spec.2.2 "no-version-here" (by decide)

/-- **C9** — For every input string `s`, if `parseApkPackage s` returns
`(name, version)` with `version ≠ "unknown"`, then `name ++ "-" ++ version`
equals `s` exactly and the first character of `version` is a decimal digit;
`parseApkPackage` is total (it is a Lean function) and its `version`
component is never the empty string, so it never returns an empty pair. -/
theorem parseApkPackage_inverse (s : String) :
    (parseApkPackage s).2 ≠ "" ∧
    ((parseApkPackage s).2 ≠ "unknown" →
      (parseApkPackage s).1 ++ "-" ++ (parseApkPackage s).2 = s ∧
      ∃ c cs, ((parseApkPackage s).2).data = c :: cs ∧ isApkDigit c = true) := by
  rcases hidx : apkSplitIndex s.data with _ | i
  · have hres : parseApkPackage s = (s, "unknown") := by
      unfold parseApkPackage; rw [hidx]
    rw [hres]
    refine ⟨?_, fun hne => absurd rfl hne⟩
    intro hcon
    have := congrArg String.data hcon
    simp at this
  · have hcond := apkSplitCond_of_index_eq hidx
    unfold apkSplitCond at hcond
    split at hcond
    case h_2 => exact absurd hcond (by simp)
    case h_1 c d hci hdi =>
    rw [Bool.and_eq_true, beq_iff_eq] at hcond
    obtain ⟨hc, hd⟩ := hcond
    have hres : parseApkPackage s =
        (String.mk (s.data.take i), String.mk (s.data.drop (i + 1))) := by
      unfold parseApkPackage; rw [hidx]
    obtain ⟨hlt, hget⟩ := List.get?_eq_some.mp hdi
    have hdrop : s.data.drop (i + 1) = d :: s.data.drop (i + 2) := by
      rw [List.drop_eq_getElem_cons hlt]
      congr 1
    constructor
    · rw [hres]
      intro hcon
      have := congrArg String.data hcon
      rw [hdrop] at this
      exact List.noConfusion this
    · intro _
      constructor
      · rw [hres]
        apply str_ext
        have hlt' : i < s.data.length := by
          obtain ⟨h', _⟩ := List.get?_eq_some.mp hci
          exact h'
        have hgi : s.data[i] = '-' := by
          obtain ⟨h', hg⟩ := List.get?_eq_some.mp hci
          rw [hc] at hg
          simpa [List.get] using hg
        have hdropi : s.data.drop i = '-' :: s.data.drop (i + 1) := by
          rw [List.drop_eq_getElem_cons hlt', hgi]
        calc ((String.mk (s.data.take i) ++ "-") ++
                String.mk (s.data.drop (i + 1))).data
            = s.data.take i ++ '-' :: s.data.drop (i + 1) := by
              simp [String.data_append]
          _ = s.data.take i ++ s.data.drop i := by rw [hdropi]
          _ = s.data := List.take_append_drop i s.data
      · rw [hres]
        exact ⟨d, s.data.drop (i + 2), hdrop, hd⟩

/-- Witness for `parseApkPackage_inverse`: the round-trip clause applied at
the concrete input `"busybox-1.36.1-r1"`. -/
theorem parseApkPackage_inverse_witness :
    (parseApkPackage "busybox-1.36.1-r1").1 ++ "-" ++
      (parseApkPackage "busybox-1.36.1-r1").2 = "busybox-1.36.1-r1" :=
  (((parseApkPackage_inverse "busybox-1.36.1-r1").2) (by decide)).1

/-! ## `Unmount` (internal/rootfs/cleanup.go)

```go
func (r *Rootfs) Unmount() {
    data, err := os.ReadFile("/proc/mounts")
    ...
    var mountPoints []string
    for _, line := range strings.Split(string(data), "\n") {
        fields := strings.Fields(line)
        if len(fields) < 2 { continue }
        mp := fields[1]
        if strings.HasPrefix(mp, r.Path+"/") { mountPoints = append(mountPoints, mp) }
    }
    // Sort in reverse order to unmount deepest first
    sort.Sort(sort.Reverse(sort.StringSlice(mountPoints)))
    for _, mp := range mountPoints { ... exec umount mp ... }
}
```

The live mount table (the contents of `/proc/mounts`) is modelled as a
list of lines, each already split into its whitespace-separated fields
(`strings.Fields`). Go's `sort.StringSlice` compares strings byte-wise
lexicographically; `ltb` is that comparison on the character data (UTF-8
preserves lexicographic order, and all mount paths here are ASCII).
`sort.Reverse` flips it, so the sort key is "greater-or-equal first";
since equal strings are interchangeable the sorted result is the unique
`strGe`-sorted permutation, computed here by insertion sort. `Unmount`
attempts `umount` on every selected mount point in that order (individual
failures only warn), so `unmountSeq` is the exact sequence of `umount`
invocations it issues. -/

/-- Go byte-wise lexicographic `<` on strings, on character data. -/
def ltb : List Char → List Char → Bool
  | [], [] => false
  | [], _ :: _ => true
  | _ :: _, [] => false
  | a :: as, b :: bs =>
    if a.toNat < b.toNat then true
    else if b.toNat < a.toNat then false
    else ltb as bs

/-- The comparison `sort.Reverse(sort.StringSlice)` sorts by:
`a` may precede `b` iff `a` is not byte-wise less than `b`. -/
def strGe (a b : String) : Prop := ltb a.data b.data = false

instance : DecidableRel strGe := fun a b =>
  inferInstanceAs (Decidable (ltb a.data b.data = false))

theorem ltb_asymm : ∀ a b : List Char, ltb a b = true → ltb b a = false
  | [], [], h => by simp [ltb] at h
  | [], _ :: _, _ => by simp [ltb]
  | _ :: _, [], h => by simp [ltb] at h
  | a :: as, b :: bs, h => by
    by_cases hab : a.toNat < b.toNat
    · simp [ltb, hab, Nat.lt_asymm hab, Nat.lt_irrefl]
    · by_cases hba : b.toNat < a.toNat
      · simp [ltb, hab, hba] at h
      · have h' : ltb as bs = true := by simpa [ltb, hab, hba] using h
        simp [ltb, hab, hba, ltb_asymm as bs h']

theorem ltb_trans_or : ∀ a b c : List Char,
    ltb a c = true → ltb a b = true ∨ ltb b c = true
  | [], b, c, h => by
    cases b with
    | nil => exact Or.inr h
    | cons x xs => exact Or.inl (by simp [ltb])
  | _ :: _, _, [], h => by simp [ltb] at h
  | a :: as, [], c :: cs, _ => by
    exact Or.inr (by simp [ltb])
  | a :: as, b :: bs, c :: cs, h => by
    by_cases hab : a.toNat < b.toNat
    · exact Or.inl (by simp [ltb, hab])
    · by_cases hbc : b.toNat < c.toNat
      · exact Or.inr (by simp [ltb, hbc])
      · -- b.toNat ≤ a.toNat and c.toNat ≤ b.toNat, so c.toNat ≤ a.toNat
        by_cases hac : a.toNat < c.toNat
        · omega
        · by_cases hca : c.toNat < a.toNat
          · simp [ltb, hac, hca] at h
          · have hba : ¬ b.toNat < a.toNat := by omega
            have hcb : ¬ c.toNat < b.toNat := by omega
            have h' : ltb as cs = true := by simpa [ltb, hac, hca] using h
            rcases ltb_trans_or as bs cs h' with h1 | h1
            · exact Or.inl (by simp [ltb, hab, hba, h1])
            · exact Or.inr (by simp [ltb, hbc, hcb, h1])

instance : IsTotal String strGe where
  total a b := by
    unfold strGe
    rcases h : ltb a.data b.data with _ | _
    · exact Or.inl rfl
    · exact Or.inr (ltb_asymm _ _ h)

instance : IsTrans String strGe where
  trans a b c hab hbc := by
    unfold strGe at *
    rcases h : ltb a.data c.data with _ | _
    · rfl
    · rcases ltb_trans_or a.data b.data c.data h with h1 | h1
      · rw [hab] at h1; exact absurd h1 (by simp)
      · rw [hbc] at h1; exact absurd h1 (by simp)

/-- A strict path-prefix is byte-wise smaller: `l < l ++ c :: m`. -/
theorem ltb_append_cons : ∀ (l : List Char) (c : Char) (m : List Char),
    ltb l (l ++ c :: m) = true
  | [], _, _ => by simp [ltb]
  | a :: as, c, m => by
    simp [ltb, Nat.lt_irrefl, ltb_append_cons as c m]

/-- The mount points `Unmount` selects from the mount table: field 1 of
every line with at least two fields, kept when it extends `root ++ "/"`. -/
def mountPointsUnder (root : String) (table : List (List String)) : List String :=
  table.filterMap fun fields =>
    match fields with
    | _ :: mp :: _ => if hasPrefix mp (root ++ "/") then some mp else none
    | _ => none

/-- The sequence of `umount` invocations issued by `Unmount`: the selected
mount points, sorted by `sort.Reverse(sort.StringSlice)`. -/
def unmountSeq (root : String) (table : List (List String)) : List String :=
  List.insertionSort strGe (mountPointsUnder root table)

/-- The mount table left after `Unmount` when every issued `umount`
succeeds: exactly the lines whose mount point was not selected. -/
def tableAfterUnmount (root : String) (table : List (List String)) :
    List (List String) :=
  table.filter fun fields =>
    match fields with
    | _ :: mp :: _ => !(hasPrefix mp (root ++ "/"))
    | _ => true

/-- If `a ++ "/"` is a prefix of `b` then `a` is byte-wise less than `b`. -/
theorem ltb_of_hasPrefix_slash {a b : String}
    (h : hasPrefix b (a ++ "/") = true) : ltb a.data b.data = true := by
  rw [hasPrefix, List.isPrefixOf_iff_prefix] at h
  obtain ⟨t, ht⟩ := h
  rw [String.data_append] at ht
  have hb : b.data = a.data ++ '/' :: t := by
    rw [← ht]; simp
  rw [hb]
  exact ltb_append_cons a.data '/' t

/-- **C2 (counterexample)** — Over mounts at `/r/a`, `/r/a/b`, `/r/c`,
`Unmount` issues the unmounts in the order `[/r/c, /r/a/b, /r/a]`
(reverse lexicographic), not in the claimed path-length-descending order
`[/r/a/b, /r/a, /r/c]`. -/
theorem Unmount_order_counterexample :
    unmountSeq "/r"
        [["host", "/r/a", "o"], ["host", "/r/a/b", "o"], ["host", "/r/c", "o"]]
      = ["/r/c", "/r/a/b", "/r/a"] ∧
    (["/r/c", "/r/a/b", "/r/a"] : List String)
      ≠ ["/r/a/b", "/r/a", "/r/c"] := by
  constructor
  · decide
  · decide

/-- **C2 (amended)** — `Unmount` selects exactly the mount points that are
strict descendants of `rootPath` (those extending `rootPath ++ "/"`), and
sorts them in reverse byte-wise lexicographic order — not by path length
descending. This order still unmounts every child mount before its parent:
no selected mount point is followed by one that it strictly path-prefixes.
(On the example table the issued order is `[/r/c, /r/a/b, /r/a]`, proved
in `Unmount_order_counterexample`.) -/
theorem Unmount_order (root : String) (table : List (List String)) :
    (unmountSeq root table).Perm (mountPointsUnder root table) ∧
    List.Sorted strGe (unmountSeq root table) ∧
    List.Pairwise (fun a b => hasPrefix b (a ++ "/") = false)
      (unmountSeq root table) := by
  refine ⟨List.perm_insertionSort _ _, List.sorted_insertionSort _ _, ?_⟩
  have hs : List.Sorted strGe (unmountSeq root table) :=
    List.sorted_insertionSort _ _
  refine hs.imp ?_
  intro a b hab
  rcases h : hasPrefix b (a ++ "/") with _ | _
  · rfl
  · have := ltb_of_hasPrefix_slash h
    rw [strGe, this] at hab
    exact absurd hab (by simp)

/-- No mount point survives into `mountPointsUnder` after the matching
lines have been unmounted. -/
theorem mountPointsUnder_tableAfterUnmount (root : String)
    (table : List (List String)) :
    mountPointsUnder root (tableAfterUnmount root table) = [] := by
  induction table with
  | nil => rfl
  | cons f rest ih =>
    rcases f with _ | ⟨x, _ | ⟨mp, fr⟩⟩
    · simpa [tableAfterUnmount, mountPointsUnder, List.filter_cons] using ih
    · simpa [tableAfterUnmount, mountPointsUnder, List.filter_cons] using ih
    · rcases h : hasPrefix mp (root ++ "/") with _ | _
      · simpa [tableAfterUnmount, mountPointsUnder, List.filter_cons, h]
          using ih
      · simpa [tableAfterUnmount, List.filter_cons, h] using ih

/-- **C6** — `Unmount` is idempotent: a mount table with no mount point
descending from `rootPath` produces zero `umount` operations; in
particular, after a first `Unmount` whose `umount`s all succeeded, a
second consecutive call (no new mounts) performs zero operations. -/
theorem Unmount_idempotent (root : String) (table : List (List String)) :
    (mountPointsUnder root table = [] → unmountSeq root table = []) ∧
    unmountSeq root (tableAfterUnmount root table) = [] := by
  constructor
  · intro h
    rw [unmountSeq, h]
    rfl
  · rw [unmountSeq, mountPointsUnder_tableAfterUnmount]
    rfl

/-- Witness for `Unmount_idempotent`: a table whose only mount point is
outside the rootfs produces no operations. -/
theorem Unmount_idempotent_witness :
    unmountSeq "/r" [["host", "/elsewhere", "o"]] = [] :=
  (Unmount_idempotent "/r" [["host", "/elsewhere", "o"]]).1 (by decide)

/-! ## `CleanupRootfs` (internal/rootfs/cleanup.go)

```go
func (r *Rootfs) CleanupRootfs() error {
    cachePath := filepath.Join(r.Path, "var", "cache", "apk")
    os.RemoveAll(cachePath)                 // result discarded
    devPath := filepath.Join(r.Path, "dev")
    entries, _ := os.ReadDir(devPath)       // error discarded, entries nil on failure
    for _, e := range entries {
        os.RemoveAll(filepath.Join(devPath, e.Name()))  // result discarded
    }
    return nil
}
```

The one fallible call whose outcome influences the function's behaviour is
`os.ReadDir` (on failure the returned slice is nil, so the loop body never
runs); it is passed in as an `Except`. The `os.RemoveAll` results are
discarded without branching, so they need no input. The model returns the
list of paths passed to `os.RemoveAll`, in order, together with the
function's returned error. -/

/-- `CleanupRootfs`: first component is the sequence of `os.RemoveAll`
targets, second component the returned Go `error` (`none` = `nil`). -/
def cleanupRootfs (root : String) (readDevDir : Except String (List String)) :
    List String × Option String :=
  let cachePath := root ++ "/var/cache/apk"
  let devPath := root ++ "/dev"
  let entries :=
    match readDevDir with
    | .ok es => es
    | .error _ => []
  (cachePath :: entries.map (fun e => devPath ++ "/" ++ e), none)

/-- **C10** — `CleanupRootfs` returns `nil` for every state of the rootfs
tree: a failure reading the dev directory (and any failure of the
individual `os.RemoveAll` calls, whose results the code discards without
branching) is silently swallowed and never propagated; on a read failure
the dev-entry loop simply runs over nothing and only the package cache
removal is attempted. -/
theorem CleanupRootfs_returns_nil (root : String)
    (readDevDir : Except String (List String)) :
    (cleanupRootfs root readDevDir).2 = none ∧
    (∀ e, readDevDir = .error e →
      (cleanupRootfs root readDevDir).1 = [root ++ "/var/cache/apk"]) := by
  constructor
  · rfl
  · intro e he
    simp [cleanupRootfs, he]

/-- Witness for `CleanupRootfs_returns_nil`: a failing dev-directory read
still yields a `nil` error and only the cache removal. -/
theorem CleanupRootfs_returns_nil_witness :
    (cleanupRootfs "/r" (.error "permission denied")).2 = none ∧
    (cleanupRootfs "/r" (.error "permission denied")).1
      = ["/r/var/cache/apk"] :=
  ⟨(CleanupRootfs_returns_nil "/r" (.error "permission denied")).1,
   (CleanupRootfs_returns_nil "/r" (.error "permission denied")).2
     "permission denied" rfl⟩

/-! ## The build pipeline as an event trace (`runBuild`, main.go)

`runBuild` performs, in source order (failures call `fatal`, which is
`os.Exit(1)`: the run truncates and deferred calls do not run, so every
execution of the pipeline is a prefix of the full event list):

1. `rootfs.Bootstrap`: download, extract, `setupChrootMounts` (mount
   `proc`, bind-mount `/dev` and `/sys` under the rootfs), copy resolv,
   install base system, configure mkinitfs, generate and patch the
   initramfs — with `defer rfs.Cleanup(true)` registered on success;
2. package / user / service provisioning and optional SBOM generation;
3. `rfs.Unmount()` — explicitly *before* the destructive clean
   (main.go: "Unmount chroot bind mounts before cleaning");
4. `rfs.CleanupRootfs()` — removes the apk cache tree and every entry
   under `rootPath/dev`;
5. bootloader staging and ISO assembly;
6. the deferred `Cleanup(true)`: `Unmount()` then `os.RemoveAll(WorkDir)`
   (which also traverses `rootPath/dev`, as `rootPath` is inside
   `WorkDir`).

The mount-table semantics: mounting pushes the target mount point;
`Unmount` removes every mount point extending `rootPath ++ "/"` (the
selection proved in `Unmount_order`; each issued `umount` is taken to
succeed — failures only warn). `devSafe` demands, at every event that
deletes entries under `rootPath/dev`, that an `unmountAll` has completed
earlier in the trace *and* that no mount is active at `rootPath/dev`. -/

/-- Events of the build pipeline that matter to the mount lifecycle. -/
inductive BuildEv where
  | mountVirt (fstype target : String)
  | mountBind (src target : String)
  | unmountAll
  | removeTree (path : String)
  | removeDevEntries
  | runStep (desc : String)
deriving DecidableEq

/-- `rootfsPath = filepath.Join(workDir, "rootfs")` (Bootstrap). -/
def rootOf (workDir : String) : String := workDir ++ "/rootfs"

/-- `setupChrootMounts`: proc (virtual), /dev and /sys (bind). -/
def setupChrootMountsEvs (root : String) : List BuildEv :=
  [.mountVirt "proc" (root ++ "/proc"),
   .mountBind "/dev" (root ++ "/dev"),
   .mountBind "/sys" (root ++ "/sys")]

/-- `rootfs.Bootstrap` (steps 1–7 of part_001). -/
def bootstrapEvs (root : String) : List BuildEv :=
  [.runStep "downloadMinirootfs", .runStep "extractTarball"] ++
  setupChrootMountsEvs root ++
  [.runStep "copyResolv", .runStep "installBaseSystem",
   .runStep "configureMkinitfs", .runStep "generateInitramfs",
   .runStep "patchInitramfs"]

/-- `CleanupRootfs`: apk cache tree removal, then the dev-entry loop. -/
def cleanupRootfsEvs (root : String) : List BuildEv :=
  [.removeTree (root ++ "/var/cache/apk"), .removeDevEntries]

/-- `Cleanup(true)`: `Unmount()` then `os.RemoveAll(r.WorkDir)`. -/
def cleanupEvs (workDir : String) : List BuildEv :=
  [.unmountAll, .removeTree workDir]

/-- The full `runBuild` pipeline in source order (deferred `Cleanup(true)`
runs last; every aborted run is a prefix of this list). -/
def runBuildEvs (workDir : String) : List BuildEv :=
  bootstrapEvs (rootOf workDir) ++
  [.runStep "installPackages", .runStep "setupUsers",
   .runStep "enableServices", .runStep "sbomGenerate",
   .unmountAll] ++
  cleanupRootfsEvs (rootOf workDir) ++
  [.runStep "bootloaderSetup", .runStep "isoBuild"] ++
  cleanupEvs workDir

/-- Mount-table transition of one event (each `umount` issued by
`Unmount` succeeds; failures only warn and are outside this model). -/
def applyEv (root : String) (m : List String) : BuildEv → List String
  | .mountVirt _ t => t :: m
  | .mountBind _ t => t :: m
  | .unmountAll => m.filter fun mp => !(hasPrefix mp (root ++ "/"))
  | _ => m

/-- Does the event recursively delete entries under `root ++ "/dev"`?
`removeDevEntries` does by definition; `removeTree p` does when the dev
directory lies inside (or is) the removed tree. -/
def deletesUnderDev (root : String) : BuildEv → Bool
  | .removeDevEntries => true
  | .removeTree p =>
      (p == root ++ "/dev") || hasPrefix (root ++ "/dev") (p ++ "/")
  | _ => false

/-- The safety contract along a trace: every event deleting under
`root ++ "/dev"` is preceded by a completed `unmountAll` and executes with
no mount active at `root ++ "/dev"` (so the deletion cannot reach host
paths through a still-active bind mount). -/
def devSafe (root : String) (m : List String) (seen : Bool) :
    List BuildEv → Prop
  | [] => True
  | ev :: rest =>
      (deletesUnderDev root ev = true →
        seen = true ∧ (root ++ "/dev") ∉ m) ∧
      devSafe root (applyEv root m ev)
        (seen || decide (ev = BuildEv.unmountAll)) rest

theorem devSafe_of_append {root : String} {m : List String} {seen : Bool} :
    ∀ {l₁ l₂ : List BuildEv}, devSafe root m seen (l₁ ++ l₂) →
      devSafe root m seen l₁ := by
  intro l₁
  induction l₁ generalizing m seen with
  | nil => intro _ _; trivial
  | cons ev rest ih =>
    intro l₂ h
    exact ⟨h.1, ih h.2⟩

theorem hasPrefix_dev (root : String) :
    hasPrefix (root ++ "/dev") (root ++ "/") = true := by
  have h : root ++ "/dev" = (root ++ "/") ++ "dev" := by
    rw [String.append_assoc]
    exact rfl
  rw [h]
  exact hasPrefix_append _ _

/-- After an `unmountAll`, `root ++ "/dev"` is not in the mount table. -/
theorem dev_notMem_filter (root : String) (m : List String) :
    (root ++ "/dev") ∉
      m.filter fun mp => !(hasPrefix mp (root ++ "/")) := by
  intro hmem
  rw [List.mem_filter] at hmem
  have h := hmem.2
  rw [hasPrefix_dev root] at h
  exact absurd h (by simp)

/-- **C1** — In every execution of the build pipeline (every prefix of the
`runBuild` event trace, since a failing stage exits and truncates the
run), and in particular across the `CleanupRootfs` and deferred
`Cleanup(true)` deletions it contains, every event that recursively
deletes entries under `rootPath/dev` happens only after an `unmountAll`
has fully completed, and executes from any initial mount table with no
mount active at `rootPath/dev` — so the destructive rootfs-clean step
cannot reach host paths through a still-active bind mount. -/
theorem runBuild_unmount_before_dev_delete (workDir : String)
    (m₀ : List String) :
    devSafe (rootOf workDir) m₀ false (runBuildEvs workDir) ∧
    ∀ p, p <+: runBuildEvs workDir → devSafe (rootOf workDir) m₀ false p := by
  have hmain : devSafe (rootOf workDir) m₀ false (runBuildEvs workDir) := by
    simp only [runBuildEvs, bootstrapEvs, setupChrootMountsEvs,
      cleanupRootfsEvs, cleanupEvs, List.cons_append, List.nil_append,
      List.append_assoc]
    simp [devSafe, applyEv, deletesUnderDev, dev_notMem_filter,
      hasPrefix_dev]
  refine ⟨hmain, ?_⟩
  intro p hp
  obtain ⟨l₂, hl⟩ := hp
  rw [← hl] at hmain
  exact devSafe_of_append hmain

/-- Witness for `runBuild_unmount_before_dev_delete`: the prefix clause
applied to the truncated run that aborts right after the chroot mounts are
established (no deletion has happened, so the contract holds). -/
theorem runBuild_unmount_before_dev_delete_witness :
    devSafe (rootOf "/tmp/distrorun-demo") ["/pre"] false
      ((runBuildEvs "/tmp/distrorun-demo").take 5) :=
  (runBuild_unmount_before_dev_delete "/tmp/distrorun-demo" ["/pre"]).2
    ((runBuildEvs "/tmp/distrorun-demo").take 5)
    (List.take_prefix 5 (runBuildEvs "/tmp/distrorun-demo"))

/-! ## The initramfs transcoder (`PatchInitramfs`, part_001)

An initramfs is a gzip-compressed cpio archive: an ordered sequence of
entries, each a path with a mode and a content (regular-file data, a
symlink target, or a directory). `PatchInitramfs`:

* opens the file with `gzip.NewReader`; if the gzip signature does not
  match it falls back to treating the file as a raw cpio archive
  ("Might not be gzip — try as raw cpio");
* extracts the cpio into a fresh directory with `cpio -idm` (preserving
  modes and symlink targets);
* runs `os.WriteFile(extractDir/init, customInit, 0755)`;
* repacks with `find . | cpio -o -H newc` (a deterministic traversal of
  the extraction directory) and always writes the result back through
  `gzip.NewWriter`.

The extract/repack pair is the external `cpio` tool and is modelled as
the identity on the entry sequence (the extraction directory is the
entry list keyed by path). The one step whose semantics lives in this
code is the `os.WriteFile` patch: per Go's contract, `WriteFile`
truncates an *existing* file **without changing its permissions**; the
`0755` permission argument applies only when the file is created. -/

/-- Content of one archive entry. -/
inductive EntryContent where
  | file (data : String)
  | symlink (target : String)
  | dir
deriving DecidableEq

/-- Is the content a regular file? (`os.WriteFile` follows symlinks and
fails on directories, which is outside this entry-level model.) -/
def isRegularFile : EntryContent → Bool
  | .file _ => true
  | _ => false

/-- One cpio archive entry: path, permission bits, content. -/
structure CpioEntry where
  path : String
  mode : Nat
  content : EntryContent
deriving DecidableEq

/-- The DistroRun live CD init script (the `customInit` constant). -/
def customInit : String :=
  "#!/bin/sh\n# DistroRun Live CD Init\n\n# Install busybox symlinks (mount, sleep, modprobe, etc.)\n/bin/busybox --install -s\n\nexport PATH=/usr/bin:/bin:/usr/sbin:/sbin\n\n# Mount essential virtual filesystems\nmount -t devtmpfs devtmpfs /dev\nmount -t proc proc /proc\nmount -t sysfs sysfs /sys\n\n# Load kernel modules for CD-ROM and squashfs\nfor mod in loop squashfs isofs sr_mod cdrom ata_piix ahci virtio_blk virtio_pci virtio_scsi; do\n    modprobe $mod 2>/dev/null\ndone\n\n# Wait for CD-ROM device to appear (up to 10 seconds)\necho \"DistroRun: Waiting for CD-ROM...\"\ni=0\nwhile [ ! -b /dev/sr0 ] && [ $i -lt 10 ]; do\n    sleep 1\n    i=$((i + 1))\ndone\n\nif [ ! -b /dev/sr0 ]; then\n    echo \"ERROR: CD-ROM device /dev/sr0 not found\"\n    echo \"Dropping to emergency shell...\"\n    exec /bin/sh\nfi\n\n# Mount the CD-ROM (ISO9660)\nmkdir -p /media/cdrom\nmount -t iso9660 -o ro /dev/sr0 /media/cdrom\n\nif [ ! -f /media/cdrom/rootfs.squashfs ]; then\n    echo \"ERROR: rootfs.squashfs not found on CD\"\n    echo \"Dropping to emergency shell...\"\n    exec /bin/sh\nfi\n\n# Mount squashfs as read-only lower layer\nmkdir -p /lower\nmount -t squashfs -o ro,loop /media/cdrom/rootfs.squashfs /lower\n\n# Create tmpfs for writable upper layer\nmkdir -p /upper\nmount -t tmpfs tmpfs /upper\nmkdir -p /upper/upper /upper/work\n\n# Create overlay: writable root = tmpfs on top of squashfs\nmkdir -p /sysroot\nmount -t overlay overlay \\\n    -o lowerdir=/lower,upperdir=/upper/upper,workdir=/upper/work \\\n    /sysroot\n\n# Move virtual filesystems into the new root\nmkdir -p /sysroot/dev /sysroot/proc /sysroot/sys\nmount --move /dev /sysroot/dev\nmount --move /proc /sysroot/proc\nmount --move /sys /sysroot/sys\n\necho \"DistroRun: Switching to root filesystem...\"\nexec switch_root /sysroot /sbin/init\n"

/-- `os.WriteFile(dir/p, data, perm)` on the extraction directory `es`:
truncate and rewrite the existing entry at `p` keeping its permissions,
or create a fresh entry with permissions `perm`. -/
def writeFileEntry (es : List CpioEntry) (p : String) (data : String)
    (perm : Nat) : List CpioEntry :=
  if es.any (fun e => e.path == p) then
    es.map fun e =>
      if e.path == p then { e with content := .file data } else e
  else
    es ++ [{ path := p, mode := perm, content := .file data }]

/-- Steps (d)–(f) of `PatchInitramfs` on the entry sequence: extract,
overwrite `init` with the live CD script, repack in a stable order. -/
def patchExtractedTree (es : List CpioEntry) : List CpioEntry :=
  writeFileEntry es "init" customInit 0o755

/-- The whole transcoder at the entry level. -/
def patchInitramfsArchive (ar : List CpioEntry) : List CpioEntry :=
  patchExtractedTree ar

/-- The on-disk initramfs: either a gzip stream wrapping a cpio archive,
or a raw (uncompressed) cpio archive. -/
inductive InitramfsFile where
  | gzipped (ar : List CpioEntry)
  | raw (ar : List CpioEntry)
deriving DecidableEq

/-- Steps (b)–(c): `gzip.NewReader` succeeds exactly on a gzip signature
and decompresses; on signature mismatch the code falls back to reading
the file itself as the cpio archive (`cpioPath = initramfsPath`). -/
def readInitramfsEntries : InitramfsFile → List CpioEntry
  | .gzipped ar => ar
  | .raw ar => ar

/-- `PatchInitramfs` end to end on the file: read (either representation),
patch, and always write the repacked archive back through
`gzip.NewWriter`. -/
def patchInitramfsFile (f : InitramfsFile) : InitramfsFile :=
  .gzipped (patchExtractedTree (readInitramfsEntries f))

/-- **C3 (counterexample)** — An archive whose `init` entry has mode
`0644` is patched to the fixed script but keeps mode `0644`:
`os.WriteFile` does not change the permissions of an existing file, so
the patched entrypoint does not carry mode `0755` as claimed. -/
theorem PatchInitramfs_mode_counterexample :
    patchInitramfsArchive [⟨"init", 0o644, .file "#!/bin/sh\ntrue\n"⟩]
      = [⟨"init", 0o644, .file customInit⟩] ∧ (0o644 : Nat) ≠ 0o755 := by
  refine ⟨?_, by decide⟩
  rfl

/-- **C3 (amended)** — The decompress–extract–patch–repack round trip
preserves every entry's path, mode, and content except the boot
entrypoint `init`: after patching, `init`'s content equals the fixed
live-boot script; its mode is `0755` when the archive had no `init`
entry, but when an `init` entry existed its original mode is retained
(`os.WriteFile` truncates an existing file without changing its
permissions). The hypothesis restricts any pre-existing `init` entry to
a regular file, the only case the `os.WriteFile` patch handles at the
entry level. -/
theorem PatchInitramfs_roundtrip (ar : List CpioEntry)
    (_hreg : ∀ e ∈ ar, e.path = "init" → isRegularFile e.content = true) :
    (∀ e ∈ ar, e.path ≠ "init" → e ∈ patchInitramfsArchive ar) ∧
    (∀ e ∈ patchInitramfsArchive ar, e.path ≠ "init" → e ∈ ar) ∧
    (∀ e ∈ ar, e.path = "init" →
      ({ path := "init", mode := e.mode, content := .file customInit } :
        CpioEntry) ∈ patchInitramfsArchive ar) ∧
    ((∀ e ∈ ar, e.path ≠ "init") →
      patchInitramfsArchive ar
        = ar ++ [{ path := "init", mode := 0o755,
                   content := .file customInit }]) := by
  clear _hreg
  unfold patchInitramfsArchive patchExtractedTree writeFileEntry
  by_cases h : ar.any (fun e => e.path == "init")
  · rw [if_pos h]
    refine ⟨?_, ?_, ?_, ?_⟩
    · intro e he hne
      refine List.mem_map.mpr ⟨e, he, ?_⟩
      show (if (e.path == "init") = true
          then { e with content := EntryContent.file customInit } else e) = e
      rw [if_neg (by simpa using hne)]
    · intro e he hne
      rw [List.mem_map] at he
      obtain ⟨a, ha, hfa⟩ := he
      by_cases hp : a.path = "init"
      · exfalso
        have hfa' : ({ a with content := EntryContent.file customInit } :
            CpioEntry) = e := by
          rw [← hfa]
          show _ = (if (a.path == "init") = true
            then { a with content := EntryContent.file customInit } else a)
          rw [if_pos (by simpa using hp)]
        rw [← hfa'] at hne
        exact hne hp
      · have hfa' : a = e := by
          rw [← hfa]
          show _ = (if (a.path == "init") = true
            then { a with content := EntryContent.file customInit } else a)
          rw [if_neg (by simpa using hp)]
        rw [← hfa']
        exact ha
    · intro e he hp
      refine List.mem_map.mpr ⟨e, he, ?_⟩
      show (if (e.path == "init") = true
          then { e with content := EntryContent.file customInit } else e)
        = { path := "init", mode := e.mode,
            content := EntryContent.file customInit }
      rw [if_pos (by simpa using hp)]
      cases e
      simp only at hp
      rw [hp]
    · intro hall
      exfalso
      rw [List.any_eq_true] at h
      obtain ⟨e, he, hbe⟩ := h
      exact hall e he (by simpa using hbe)
  · rw [if_neg h]
    refine ⟨?_, ?_, ?_, ?_⟩
    · intro e he _
      exact List.mem_append_left _ he
    · intro e he hne
      rcases List.mem_append.mp he with h1 | h1
      · exact h1
      · exfalso
        rw [List.mem_singleton] at h1
        rw [h1] at hne
        exact hne rfl
    · intro e he hp
      exact absurd (List.any_eq_true.mpr ⟨e, he, by simpa using hp⟩) h
    · intro _
      rfl

/-- Witness for `PatchInitramfs_roundtrip`: the spec's example archive
`{a : mode 0644, b : symlink → a, mode 0755}` (no `init` entry) is
patched by appending the executable entrypoint and keeping both entries
untouched. -/
theorem PatchInitramfs_roundtrip_witness :
    patchInitramfsArchive
        [⟨"a", 0o644, .file "data"⟩, ⟨"b", 0o755, .symlink "a"⟩]
      = [⟨"a", 0o644, .file "data"⟩, ⟨"b", 0o755, .symlink "a"⟩,
         ⟨"init", 0o755, .file customInit⟩] := by
  have h := (PatchInitramfs_roundtrip
      [⟨"a", 0o644, .file "data"⟩, ⟨"b", 0o755, .symlink "a"⟩]
      (by decide)).2.2.2 (by decide)
  simpa using h

/-- **C4** — `PatchInitramfs` accepts both a gzip-compressed input and an
already-uncompressed cpio input (on gzip signature mismatch it falls back
to treating the file as a raw archive instead of failing), and in both
cases the rewritten output is gzip-compressed. -/
theorem PatchInitramfs_accepts_both (ar : List CpioEntry) :
    patchInitramfsFile (.gzipped ar) = .gzipped (patchExtractedTree ar) ∧
    patchInitramfsFile (.raw ar) = .gzipped (patchExtractedTree ar) ∧
    ∀ f : InitramfsFile, ∃ out, patchInitramfsFile f = .gzipped out :=
  ⟨rfl, rfl, fun _ => ⟨_, rfl⟩⟩

/-! ## Artifact discovery and download (`downloadMinirootfs`, part_001)

```go
resp, err := http.Get(releasesURL)              // may fail (unreachable)
if resp.StatusCode != http.StatusOK { error }   // non-success status
yaml.Unmarshal(body, &releases)                 // may fail to parse
for _, rel := range releases {
    if rel.Flavor == "alpine-minirootfs" { filename = rel.File; break }
}
if filename == "" { return error "minirootfs entry not found ..." }
tarballURL := baseURL + "/" + filename          // then downloaded
```

The network interaction is passed in as a `FetchResult`; the function
returns either the stage-tagged error message or the URL the artifact is
downloaded from. Note the Go code detects a missing record through
`filename == ""`, so a matching record with an empty `file` field is also
reported as "not found". -/

/-- One entry of Alpine's `latest-releases.yaml`. -/
structure AlpineRelease where
  flavor : String
  file : String
deriving DecidableEq

/-- Outcome of fetching the release index: a network-level error, or an
HTTP status together with the parsed-or-unparsable body. -/
inductive FetchResult where
  | netError (msg : String)
  | response (status : Nat) (body : Except String (List AlpineRelease))

/-- `downloadMinirootfs`: discover the minirootfs artifact in the release
index and return the URL it is downloaded from, or the failure. -/
def downloadMinirootfs (baseURL : String) (fetch : FetchResult) :
    Except String String :=
  match fetch with
  | .netError e => .error ("fetching releases index: " ++ e)
  | .response status body =>
    if status ≠ 200 then
      .error ("fetching releases index: HTTP " ++ toString status)
    else
      match body with
      | .error e => .error ("parsing releases index: " ++ e)
      | .ok releases =>
        let filename :=
          match releases.find? (fun rel => rel.flavor == "alpine-minirootfs") with
          | some rel => rel.file
          | none => ""
        if filename == "" then
          .error "minirootfs entry not found in releases index"
        else
          .ok (baseURL ++ "/" ++ filename)

/-- **C7** — Given a fetched release index, the first record whose flavor
is `"alpine-minirootfs"` is selected and its named file is downloaded from
`baseURL ++ "/" ++ file` (on the spec's example index the download URL is
`baseURL ++ "/minirootfs-3.19.tar.gz"`); the operation fails when the
index is unreachable, when the response status is not 200, and when no
such record exists. -/
theorem downloadMinirootfs_spec (baseURL : String) :
    (∀ rels rel,
      rels.find? (fun r => r.flavor == "alpine-minirootfs") = some rel →
      rel.file ≠ "" →
      downloadMinirootfs baseURL (.response 200 (.ok rels))
        = .ok (baseURL ++ "/" ++ rel.file)) ∧
    (∀ e, (downloadMinirootfs baseURL (.netError e)).isOk = false) ∧
    (∀ status body, status ≠ 200 →
      (downloadMinirootfs baseURL (.response status body)).isOk = false) ∧
    (∀ rels,
      rels.find? (fun r => r.flavor == "alpine-minirootfs") = none →
      (downloadMinirootfs baseURL (.response 200 (.ok rels))).isOk = false) ∧
    downloadMinirootfs baseURL
        (.response 200 (.ok [⟨"alpine-minirootfs", "minirootfs-3.19.tar.gz"⟩]))
      = .ok (baseURL ++ "/minirootfs-3.19.tar.gz") := by
  refine ⟨?_, ?_, ?_, ?_, ?_⟩
  · intro rels rel hfind hne
    simp [downloadMinirootfs, hfind, hne]
  · intro e
    rfl
  · intro status body hne
    simp only [downloadMinirootfs, if_pos hne]
    rfl
  · intro rels hfind
    simp [downloadMinirootfs, hfind]
    rfl
  · have h : (baseURL ++ "/") ++ "minirootfs-3.19.tar.gz"
        = baseURL ++ "/minirootfs-3.19.tar.gz" := by
      rw [String.append_assoc]
      exact rfl
    simp [downloadMinirootfs]
    rw [← h]
    rw [if_neg (by decide)]

/-- Witness for `downloadMinirootfs_spec`: the selection clause applied to
a two-record index whose second record is the minirootfs. -/
theorem downloadMinirootfs_spec_witness :
    downloadMinirootfs "https://cdn/x86_64"
        (.response 200 (.ok
          [⟨"alpine-standard", "std.iso"⟩,
           ⟨"alpine-minirootfs", "alpine-minirootfs-3.19.1-x86_64.tar.gz"⟩]))
      = .ok ("https://cdn/x86_64" ++ "/" ++
          "alpine-minirootfs-3.19.1-x86_64.tar.gz") :=
  (downloadMinirootfs_spec "https://cdn/x86_64").1
    [⟨"alpine-standard", "std.iso"⟩,
     ⟨"alpine-minirootfs", "alpine-minirootfs-3.19.1-x86_64.tar.gz"⟩]
    ⟨"alpine-minirootfs", "alpine-minirootfs-3.19.1-x86_64.tar.gz"⟩
    (by decide) (by decide)

/-! ## The generated live-boot init state machine (`customInit`)

The init script embedded above is a linear sequence with one bounded
loop:

```sh
i=0
while [ ! -b /dev/sr0 ] && [ $i -lt 10 ]; do
    sleep 1
    i=$((i + 1))
done
if [ ! -b /dev/sr0 ]; then ... exec /bin/sh; fi     # abort 1
mount -t iso9660 ... /media/cdrom
if [ ! -f /media/cdrom/rootfs.squashfs ]; then ... exec /bin/sh; fi  # abort 2
... exec switch_root /sysroot /sbin/init
```

`present t` models whether `/dev/sr0` is a block device `t` seconds after
the script reaches the poll loop (each loop iteration sleeps one second,
so the `i`-th device test happens at time `i`); `squash` models whether
`rootfs.squashfs` exists on the mounted medium. The loop condition
`!present(i) && i < 10` is run with the remaining-iterations fuel
`10 - i`, so `sleepLoopAux present i (10 - i)` is the number of `sleep 1`
commands the loop still executes from counter value `i`. -/

/-- The poll loop of `customInit` from counter `i` with fuel `10 - i`:
number of one-second sleeps executed. -/
def sleepLoopAux (present : Nat → Bool) : Nat → Nat → Nat
  | _, 0 => 0
  | i, fuel + 1 => if present i then 0 else sleepLoopAux present (i + 1) fuel + 1

/-- Total number of sleeps the poll loop performs (it starts at `i=0`). -/
def sleepCount (present : Nat → Bool) : Nat := sleepLoopAux present 0 10

/-- The steps of the generated init script, in script order. -/
inductive InitStep where
  | installBusybox | mountVirtualFS | loadDrivers | sleepPoll
  | mountCdrom | mountSquash | mountTmpfs | mountOverlay | moveMounts
  | switchRoot | emergencyShell
deriving DecidableEq

/-- The execution trace of the `customInit` state machine: the linear
prefix, the bounded poll, then either of the two abort branches
(`exec /bin/sh`) or the straight-line path to `switch_root`. -/
def liveInitTrace (present : Nat → Bool) (squash : Bool) : List InitStep :=
  [.installBusybox, .mountVirtualFS, .loadDrivers] ++
  List.replicate (sleepCount present) .sleepPoll ++
  (if present (sleepCount present) = false then [.emergencyShell]
   else [.mountCdrom] ++
     (if squash = false then [.emergencyShell]
      else [.mountSquash, .mountTmpfs, .mountOverlay, .moveMounts,
            .switchRoot]))

theorem sleepLoopAux_le (present : Nat → Bool) :
    ∀ fuel i, sleepLoopAux present i fuel ≤ fuel := by
  intro fuel
  induction fuel with
  | zero => intro i; simp [sleepLoopAux]
  | succ n ih =>
    intro i
    rw [sleepLoopAux]
    rcases present i with _ | _
    · simp only [Bool.false_eq_true, if_false]
      exact Nat.succ_le_succ (ih (i + 1))
    · simp

theorem sleepCount_le (present : Nat → Bool) : sleepCount present ≤ 10 :=
  sleepLoopAux_le present 10 0

/-- **C8** — In the generated live-boot init state machine the poll loop
sleeps at most 10 times (one second each); if the optical device has not
appeared by the post-loop test the script drops to the recovery shell
right after the polls; if the device is present but no `rootfs.squashfs`
is found on the mounted medium it likewise drops to the recovery shell
right after mounting the CD-ROM; otherwise it runs the straight-line path
to `switch_root`. No step other than the sleep poll occurs more than once
in any trace — no other step retries. -/
theorem liveInit_spec (present : Nat → Bool) (squash : Bool) :
    (liveInitTrace present squash).count .sleepPoll ≤ 10 ∧
    (∀ s : InitStep, s ≠ .sleepPoll →
      (liveInitTrace present squash).count s ≤ 1) ∧
    (present (sleepCount present) = false →
      liveInitTrace present squash
        = [.installBusybox, .mountVirtualFS, .loadDrivers] ++
          List.replicate (sleepCount present) .sleepPoll ++
          [.emergencyShell]) ∧
    (present (sleepCount present) = true → squash = false →
      liveInitTrace present squash
        = [.installBusybox, .mountVirtualFS, .loadDrivers] ++
          List.replicate (sleepCount present) .sleepPoll ++
          [.mountCdrom, .emergencyShell]) ∧
    (present (sleepCount present) = true → squash = true →
      liveInitTrace present squash
        = [.installBusybox, .mountVirtualFS, .loadDrivers] ++
          List.replicate (sleepCount present) .sleepPoll ++
          [.mountCdrom, .mountSquash, .mountTmpfs, .mountOverlay,
           .moveMounts, .switchRoot]) := by
  refine ⟨?_, ?_, ?_, ?_, ?_⟩
  · rcases h : present (sleepCount present) with _ | _ <;>
      rcases squash with _ | _ <;>
        simp [liveInitTrace, h, List.count_append, List.count_replicate,
          sleepCount_le present]
  · intro s hs
    have hbeq : (InitStep.sleepPoll == s) = false := by
      rw [beq_eq_false_iff_ne]
      exact fun hcon => hs hcon.symm
    rcases h : present (sleepCount present) with _ | _ <;>
      rcases squash with _ | _ <;>
        cases s <;>
          simp_all [liveInitTrace, h, List.count_append,
            List.count_replicate]
  · intro h
    simp [liveInitTrace, h]
  · intro h hsq
    subst hsq
    simp [liveInitTrace, h]
  · intro h hsq
    subst hsq
    simp [liveInitTrace, h]

/-- Witness for `liveInit_spec`: a device that never appears makes the
script sleep through the full poll budget and drop to the recovery
shell. -/
theorem liveInit_spec_witness :
    liveInitTrace (fun _ => false) true
      = [.installBusybox, .mountVirtualFS, .loadDrivers] ++
        List.replicate (sleepCount (fun _ => false)) .sleepPoll ++
        [.emergencyShell] :=
  (liveInit_spec (fun _ => false) true).2.2.1 rfl

end Distrorun
